import Mathlib

/-!
Verification development for a repository of three Python command-line
utilities: a git commit-message spell corrector (git-fix-commits.py), a CSV
timeline summarizer (monthly-activity.py) and a music folder differ
(music-diff.py).  The Python sources are shallowly embedded: strings are
lists of characters, external libraries (the language detector and the
pyspellchecker dictionaries) are injected as function parameters, and the
interactive console is modelled as a choice oracle.  Character casing is
modelled at ASCII precision, matching the workloads of every claim.
-/

/-- Messages, tokens and paths are modelled as lists of characters,
mirroring Python strings at the code-point level. -/
abbrev Str := List Char

/-- The apostrophe character. -/
def apos : Char := Char.ofNat 39

/-- The double-quote character. -/
def dquote : Char := Char.ofNat 34

/-- The opening curly brace character. -/
def lbrace : Char := Char.ofNat 123

/-- The closing curly brace character. -/
def rbrace : Char := Char.ofNat 125

/-- Whitespace recognised by Python str.split with no arguments
(space, tab, newline, carriage return, vertical tab, form feed). -/
def pyIsSpace (c : Char) : Bool :=
  c.toNat = 32 || c.toNat = 9 || c.toNat = 10 || c.toNat = 13 ||
  c.toNat = 11 || c.toNat = 12

/-- A list of characters containing no Python whitespace. -/
def noWhite (s : Str) : Bool := s.all (fun c => !pyIsSpace c)

/-- Accumulator-based splitter: acc holds the current token reversed.
Models Python str.split() which drops empty fields. -/
def splitWsAux : List Char → Str → List Str
  | [], acc => if acc.isEmpty then [] else [acc.reverse]
  | c :: s, acc =>
      if pyIsSpace c then
        (if acc.isEmpty then splitWsAux s [] else acc.reverse :: splitWsAux s [])
      else splitWsAux s (c :: acc)

/-- Python str.split() with no arguments: split on runs of whitespace,
discarding empty tokens. -/
def splitWs (s : Str) : List Str := splitWsAux s []

/-- Join a token list with single spaces; models the Python expression
that joins corrected words with a space. -/
def joinSp : List Str → Str
  | [] => []
  | [t] => t
  | t :: ts => t ++ ' ' :: joinSp ts

theorem splitWsAux_append_noWhite (t : Str) :
    ∀ (u : List Char) (acc : Str), (∀ c ∈ t, pyIsSpace c = false) →
      splitWsAux (t ++ u) acc = splitWsAux u (t.reverse ++ acc) := by
  induction t with
  | nil => intro u acc _; simp
  | cons c s ih =>
      intro u acc h
      have hc : pyIsSpace c = false := h c (by simp)
      have ih2 := ih u (c :: acc) (fun d hd => h d (by simp [hd]))
      simp [splitWsAux, hc, ih2]

theorem splitWs_single (t : Str) (hne : t ≠ []) (hw : noWhite t = true) :
    splitWs t = [t] := by
  have h : ∀ c ∈ t, pyIsSpace c = false := by
    intro c hc
    have := List.all_eq_true.mp hw c hc
    simpa using this
  have := splitWsAux_append_noWhite t [] [] h
  simp only [List.append_nil] at this
  rw [splitWs, this]
  simp [splitWsAux, hne]

theorem splitWs_sep (t : Str) (rest : List Char) (hne : t ≠ [])
    (hw : noWhite t = true) :
    splitWs (t ++ ' ' :: rest) = t :: splitWs rest := by
  have h : ∀ c ∈ t, pyIsSpace c = false := by
    intro c hc
    have := List.all_eq_true.mp hw c hc
    simpa using this
  have := splitWsAux_append_noWhite t (' ' :: rest) [] h
  rw [splitWs, this]
  have hsp : pyIsSpace ' ' = true := by decide
  simp [splitWsAux, hsp, hne, splitWs]

/-- Round trip: splitting a single-space join of nonempty whitespace-free
tokens recovers the tokens. -/
theorem splitWs_joinSp (ts : List Str)
    (h : ∀ t ∈ ts, t ≠ [] ∧ noWhite t = true) :
    splitWs (joinSp ts) = ts := by
  induction ts with
  | nil => rfl
  | cons t ts ih =>
      cases ts with
      | nil =>
          have := h t (by simp)
          simpa [joinSp] using splitWs_single t this.1 this.2
      | cons u us =>
          have ht := h t (by simp)
          have hrec := ih (fun x hx => h x (by simp [hx]))
          simpa [joinSp, hrec] using splitWs_sep t (joinSp (u :: us)) ht.1 ht.2

theorem splitWsAux_tokens (s : List Char) :
    ∀ acc : Str, noWhite acc = true →
      ∀ t ∈ splitWsAux s acc, t ≠ [] ∧ noWhite t = true := by
  induction s with
  | nil =>
      intro acc hacc t ht
      by_cases h : acc.isEmpty
      · simp [splitWsAux, h] at ht
      · simp [splitWsAux, h] at ht
        subst ht
        refine ⟨by simpa [List.isEmpty_iff] using h, ?_⟩
        simp only [noWhite, List.all_reverse]
        exact hacc
  | cons c s ih =>
      intro acc hacc t ht
      by_cases hc : pyIsSpace c
      · by_cases h : acc.isEmpty
        · simp [splitWsAux, hc, h] at ht
          exact ih [] (by decide) t ht
        · simp [splitWsAux, hc, h] at ht
          rcases ht with rfl | ht
          · refine ⟨by simpa [List.isEmpty_iff] using h, ?_⟩
            simp only [noWhite, List.all_reverse]
            exact hacc
          · exact ih [] (by decide) t ht
      · have hstep : splitWsAux (c :: s) acc = splitWsAux s (c :: acc) := by
          simp [splitWsAux, hc]
        rw [hstep] at ht
        refine ih (c :: acc) ?_ t ht
        simp only [noWhite, List.all_cons, Bool.and_eq_true] at hacc ⊢
        exact ⟨by simp [hc], hacc⟩

/-- Every token produced by splitWs is nonempty and whitespace-free. -/
theorem splitWs_tokens (s : List Char) :
    ∀ t ∈ splitWs s, t ≠ [] ∧ noWhite t = true :=
  splitWsAux_tokens s [] (by decide)

theorem pyIsSpace_toLower (c : Char) (h : pyIsSpace c = false) :
    pyIsSpace c.toLower = false := by
  by_cases hcond : c.toNat ≥ 65 ∧ c.toNat ≤ 90
  · have hb : ∀ n < 91, 65 ≤ n → pyIsSpace (Char.ofNat (n + 32)) = false := by decide
    have he : c.toLower = Char.ofNat (c.toNat + 32) := by
      unfold Char.toLower; simp [hcond]
    rw [he]; exact hb c.toNat (by omega) (by omega)
  · have he : c.toLower = c := by unfold Char.toLower; simp [hcond]
    rw [he]; exact h

theorem pyIsSpace_toUpper (c : Char) (h : pyIsSpace c = false) :
    pyIsSpace c.toUpper = false := by
  by_cases hcond : c.toNat ≥ 97 ∧ c.toNat ≤ 122
  · have hb : ∀ n < 123, 97 ≤ n → pyIsSpace (Char.ofNat (n - 32)) = false := by decide
    have he : c.toUpper = Char.ofNat (c.toNat - 32) := by
      unfold Char.toUpper; simp [hcond]
    rw [he]; exact hb c.toNat (by omega) (by omega)
  · have he : c.toUpper = c := by unfold Char.toUpper; simp [hcond]
    rw [he]; exact h

/-- Python str.lower over a token, at ASCII precision. -/
def lowerStr (s : Str) : Str := s.map Char.toLower

/-- Truth of word[0].isupper() in Python; false on the empty string is
never relied on because every use is guarded. -/
def headIsUpper : Str → Bool
  | [] => false
  | c :: _ => c.isUpper

/-- Truth of word[0].islower() in Python. -/
def headIsLower : Str → Bool
  | [] => false
  | c :: _ => c.isLower

/-- Python str.capitalize: first character uppercased, all remaining
characters lowercased. -/
def pyCapitalize : Str → Str
  | [] => []
  | c :: cs => c.toUpper :: cs.map Char.toLower

/-- The phrase-loop expression replacement[0].upper() + replacement[1:]. -/
def capFirst : Str → Str
  | [] => []
  | c :: cs => c.toUpper :: cs

/-- Python str.isupper at ASCII precision: the string has a cased
character and no lowercase character. -/
def pyIsUpper (s : Str) : Bool :=
  s.any (fun c => c.isUpper) && s.all (fun c => !c.isLower)

/-- The characters stripped from token ends by spell_check_message. -/
def punctChars : List Char :=
  ['.', ',', '!', '?', ';', ':', dquote, apos, '(', ')', '[', ']', lbrace, rbrace]

/-- Python word.strip over the punctuation set: remove those characters
from both ends of the token. -/
def stripPunct (w : Str) : Str :=
  ((w.dropWhile (fun c => punctChars.contains c)).reverse.dropWhile
    (fun c => punctChars.contains c)).reverse

/-- Characters whose presence makes the per-token pass keep a token
verbatim (URLs, identifiers and the like). -/
def specialChars : List Char := ['/', ':', '@', '#', '_', '-']

/-- Whether a token contains one of the special characters. -/
def hasSpecial (w : Str) : Bool := w.any (fun c => specialChars.contains c)

/-- Fuel-driven core of Python str.replace: replace every non-overlapping
occurrence of old, scanning left to right.  The fuel is the length of the
scanned string, which bounds the recursion depth. -/
def replaceGo (old new : Str) : Nat → Str → Str
  | 0, s => s
  | _ + 1, [] => []
  | fuel + 1, c :: s =>
      if (c :: s).take old.length = old then
        new ++ replaceGo old new fuel ((c :: s).drop old.length)
      else c :: replaceGo old new fuel s

/-- Python word.replace(old, new).  Every call site in the source passes a
nonempty old string, so the empty-old guard is never exercised. -/
def replaceAll (w old new : Str) : Str :=
  if old.isEmpty then w else replaceGo old new w.length w

theorem noWhite_append (a b : Str) :
    noWhite (a ++ b) = (noWhite a && noWhite b) := by
  simp [noWhite, List.all_append]

theorem noWhite_drop (s : Str) (n : Nat) (h : noWhite s = true) :
    noWhite (s.drop n) = true := by
  simp only [noWhite, List.all_eq_true] at h ⊢
  exact fun c hc => h c (List.drop_subset n s hc)

theorem noWhite_map_toLower (s : Str) (h : noWhite s = true) :
    noWhite (s.map Char.toLower) = true := by
  simp only [noWhite, List.all_map, List.all_eq_true, Function.comp] at h ⊢
  intro c hc
  simpa using pyIsSpace_toLower c (by simpa using h c hc)

theorem noWhite_lowerStr (s : Str) (h : noWhite s = true) :
    noWhite (lowerStr s) = true := noWhite_map_toLower s h

theorem noWhite_pyCapitalize (s : Str) (h : noWhite s = true) :
    noWhite (pyCapitalize s) = true := by
  cases s with
  | nil => decide
  | cons c cs =>
      simp only [noWhite, List.all_cons, Bool.and_eq_true] at h
      have hc := pyIsSpace_toUpper c (by simpa using h.1)
      have hcs := noWhite_map_toLower cs h.2
      simp only [pyCapitalize, noWhite, List.all_cons, Bool.and_eq_true]
      exact ⟨by simpa using hc, hcs⟩

theorem noWhite_capFirst (s : Str) (h : noWhite s = true) :
    noWhite (capFirst s) = true := by
  cases s with
  | nil => decide
  | cons c cs =>
      simp only [capFirst, noWhite, List.all_cons, Bool.and_eq_true] at h ⊢
      exact ⟨by simpa using pyIsSpace_toUpper c (by simpa using h.1), h.2⟩

theorem mem_stripPunct (w : Str) (c : Char) (hc : c ∈ stripPunct w) : c ∈ w := by
  unfold stripPunct at hc
  rw [List.mem_reverse] at hc
  have h1 := (List.dropWhile_sublist
    (l := (w.dropWhile (fun c => punctChars.contains c)).reverse)
    (fun c => punctChars.contains c)).subset hc
  rw [List.mem_reverse] at h1
  exact (List.dropWhile_sublist (l := w) (fun c => punctChars.contains c)).subset h1

theorem noWhite_stripPunct (w : Str) (h : noWhite w = true) :
    noWhite (stripPunct w) = true := by
  simp only [noWhite, List.all_eq_true] at h ⊢
  exact fun c hc => h c (mem_stripPunct w c hc)

theorem noWhite_replaceGo (old new : Str) (hn : noWhite new = true) :
    ∀ (fuel : Nat) (s : Str), noWhite s = true →
      noWhite (replaceGo old new fuel s) = true := by
  intro fuel
  induction fuel with
  | zero => intro s hs; exact hs
  | succ fuel ih =>
      intro s hs
      cases s with
      | nil => simpa [replaceGo] using hs
      | cons c cs =>
          by_cases hm : (c :: cs).take old.length = old
          · simp only [replaceGo, if_pos hm, noWhite_append, Bool.and_eq_true]
            exact ⟨hn, ih _ (noWhite_drop (c :: cs) old.length hs)⟩
          · simp only [replaceGo, if_neg hm]
            simp only [noWhite, List.all_cons, Bool.and_eq_true] at hs ⊢
            exact ⟨hs.1, ih cs hs.2⟩

theorem replaceGo_ne_nil (old new : Str) (hn : new ≠ []) :
    ∀ (fuel : Nat) (s : Str), s ≠ [] → replaceGo old new fuel s ≠ [] := by
  intro fuel
  cases fuel with
  | zero => intro s hs; exact hs
  | succ fuel =>
      intro s hs
      cases s with
      | nil => exact absurd rfl hs
      | cons c cs =>
          by_cases hm : (c :: cs).take old.length = old
          · simp only [replaceGo, if_pos hm]
            intro h
            exact hn (List.append_eq_nil.mp h).1
          · simp [replaceGo, if_neg hm]

theorem noWhite_replaceAll (w old new : Str) (hw : noWhite w = true)
    (hn : noWhite new = true) : noWhite (replaceAll w old new) = true := by
  unfold replaceAll
  split
  · exact hw
  · exact noWhite_replaceGo old new hn w.length w hw

theorem replaceAll_ne_nil (w old new : Str) (hw : w ≠ []) (hn : new ≠ []) :
    replaceAll w old new ≠ [] := by
  unfold replaceAll
  split
  · exact hw
  · exact replaceGo_ne_nil old new hn w.length w hw

/- ============ spell_check_message: phrase substitution phase ============ -/

/-- The two-way language classification of detect_language. -/
inductive Lang
  | en
  | de
deriving DecidableEq

/-- Word characters for the regex word boundary, at ASCII precision. -/
def wordChar (c : Char) : Bool := c.isAlpha || c.isDigit || c = '_'

/-- Whether the literal phrase pat matches s at offset i under
re.IGNORECASE with word boundaries at both ends of the pattern. -/
def matchB (pat s : Str) (i : Nat) : Bool :=
  decide (lowerStr ((s.drop i).take pat.length) = lowerStr pat) &&
  (decide (i = 0) || !wordChar (s.getD (i - 1) ' ')) &&
  !wordChar (s.getD (i + pat.length) ' ')

/-- Offset of the leftmost match of re.search for the phrase pattern,
none when the pattern does not occur. -/
def findMatch (pat s : Str) : Option Nat :=
  (List.range (s.length + 1)).find? (fun i => matchB pat s i)

/-- The replacement text actually substituted for a match of pr.1 at
offset i of s: the table replacement, its first letter uppercased when the
first letter of the matched span is uppercase (lines 153-158). -/
def substRepl (pr : Str × Str) (s : Str) (i : Nat) : Str :=
  if headIsUpper ((s.drop i).take pr.1.length) then capFirst pr.2 else pr.2

/-- One iteration of the phrase-correction loop: search for the pattern
and, on a match, substitute the case-adjusted replacement for the leftmost
occurrence (re.sub with count 1). -/
def phraseStep (s : Str) (pr : Str × Str) : Str :=
  match findMatch pr.1 s with
  | none => s
  | some i => s.take i ++ substRepl pr s i ++ s.drop (i + pr.1.length)

/-- The English phrase-correction table (lines 130-136). -/
def tableEn : List (Str × Str) :=
  [ ("bachelor thesis".data, "bachelor".data ++ [apos] ++ "s thesis".data),
    ("master thesis".data, "master".data ++ [apos] ++ "s thesis".data),
    ("bachelor theses".data, "bachelor".data ++ [apos] ++ "s theses".data),
    ("master theses".data, "master".data ++ [apos] ++ "s theses".data),
    ("doctor thesis".data, "doctoral thesis".data) ]

/-- The German phrase-correction table (lines 139-144). -/
def tableDe : List (Str × Str) :=
  [ ("Bachelor Thesis".data, "Bachelorarbeit".data),
    ("Master Thesis".data, "Masterarbeit".data),
    ("bachelor thesis".data, "Bachelorarbeit".data),
    ("master thesis".data, "Masterarbeit".data) ]

/-- Table selection by detected language (line 146). -/
def phraseTable : Lang → List (Str × Str)
  | Lang.de => tableDe
  | Lang.en => tableEn

/-- The whole phrase-correction loop (lines 149-159). -/
def applyPhrases (lang : Lang) (s : Str) : Str :=
  (phraseTable lang).foldl phraseStep s

/-- Whether no pattern of the selected table occurs in s. -/
def phraseFreeB (lang : Lang) (s : Str) : Bool :=
  (phraseTable lang).all (fun pr => (findMatch pr.1 s).isNone)

theorem foldl_phraseStep_of_free (s : Str) :
    ∀ tbl : List (Str × Str), (∀ pr ∈ tbl, findMatch pr.1 s = none) →
      tbl.foldl phraseStep s = s := by
  intro tbl
  induction tbl with
  | nil => intro _; rfl
  | cons pr rest ih =>
      intro h
      have hstep : phraseStep s pr = s := by
        unfold phraseStep
        rw [h pr (by simp)]
      rw [List.foldl_cons, hstep]
      exact ih (fun q hq => h q (by simp [hq]))

theorem applyPhrases_of_free (lang : Lang) (s : Str)
    (h : phraseFreeB lang s = true) : applyPhrases lang s = s := by
  apply foldl_phraseStep_of_free
  intro pr hpr
  have := List.all_eq_true.mp h pr hpr
  simpa using this

/- ============ spell_check_message: per-token pass ============ -/

/-- English words forced to lowercase mid-sentence (lines 162-177). -/
def lowercaseWordsEn : List Str :=
  ([ "insights", "script", "scripts", "file", "files", "function", "functions",
     "method", "methods", "class", "classes", "module", "modules", "package",
     "packages", "library", "libraries", "framework", "tool", "tools", "code",
     "documentation", "readme", "license", "configuration", "settings", "options",
     "feature", "features", "bug", "bugs", "issue", "issues", "test", "tests",
     "database", "server", "client", "api", "interface", "component", "components",
     "service", "services", "application", "applications", "system", "systems",
     "version", "release", "update", "updates", "change", "changes", "fix", "fixes",
     "refactor", "refactoring", "optimization", "performance", "security", "style",
     "formatting", "dependency", "dependencies", "build", "deployment", "testing",
     "implementation", "design", "architecture", "structure", "logic", "algorithm",
     "data", "model", "models", "view", "views", "controller", "controllers",
     "repository", "repositories", "folder", "folders", "directory", "directories",
     "thesis", "theses", "references", "reference", "education", "subject"
   ] : List String).map String.data

/-- German nouns forced to a capital letter (lines 182-199). -/
def capitalizedNounsDe : List Str :=
  ([ "datei", "dateien", "ordner", "verzeichnis", "verzeichnisse", "funktion",
     "funktionen", "methode", "methoden", "klasse", "klassen", "modul", "module",
     "paket", "pakete", "bibliothek", "bibliotheken", "werkzeug", "werkzeuge",
     "code", "dokumentation", "konfiguration", "einstellungen", "optionen",
     "feature", "features", "fehler", "problem", "probleme", "test", "tests",
     "datenbank", "server", "client", "schnittstelle", "komponente", "komponenten",
     "dienst", "dienste", "anwendung", "anwendungen", "system", "systeme",
     "version", "release", "aktualisierung", "änderung", "änderungen", "bugfix",
     "refactoring", "optimierung", "performance", "sicherheit", "stil", "formatierung",
     "abhängigkeit", "abhängigkeiten", "build", "deployment", "implementierung",
     "design", "architektur", "struktur", "logik", "algorithmus", "daten",
     "modell", "modelle", "ansicht", "ansichten", "controller", "repository",
     "repositories", "verzeichnis", "thesis", "arbeit", "abschlussarbeit",
     "bachelorarbeit", "masterarbeit", "referenzen", "referenz", "bildung",
     "ausbildung", "studium", "fach", "fächer", "einblick", "einblicke",
     "skript", "skripte", "stärke", "stärken", "lebenslauf", "readme",
     "insights", "script"
   ] : List String).map String.data

/-- Proper nouns and acronyms kept capitalized in both languages
(lines 202-211). -/
def alwaysCapitalized : List Str :=
  ([ "python", "java", "javascript", "typescript", "github", "gitlab", "docker",
     "kubernetes", "react", "vue", "angular", "node", "sql", "html", "css",
     "json", "xml", "yaml", "api", "rest", "graphql", "aws", "azure", "gcp",
     "linux", "windows", "macos", "android", "ios", "git", "npm", "yarn",
     "webpack", "babel", "eslint", "prettier", "jest", "mocha", "redux",
     "mongodb", "postgresql", "mysql", "redis", "elasticsearch", "kafka",
     "jenkins", "travis", "circleci", "heroku", "netlify", "vercel",
     "gallup"
   ] : List String).map String.data

/-- The injected pyspellchecker instance: dictionary membership and the
correction lookup.  correction may yield none (Python None) or any word;
an empty result is treated as a failed lookup by the caller, matching the
truthiness test in the source. -/
structure SpellOracle where
  mem : Str → Bool
  corr : Str → Option Str

/-- Case fixup applied to a spelling correction (lines 279-294); only
reached for token positions after the first. -/
def fixCase (lang : Lang) (clean corr : Str) : Str :=
  match lang with
  | Lang.de =>
      if headIsUpper corr then pyCapitalize corr
      else if headIsUpper clean then pyCapitalize corr
      else lowerStr corr
  | Lang.en =>
      if headIsUpper clean then lowerStr corr else corr

/-- Outcome of the correction lookup (lines 277-299): Python treats a None
or empty correction, or one equal to the lowercased token, as no change;
otherwise the case-fixed correction replaces the cleaned token inside the
word. -/
def corrStep (lang : Lang) (word clean : Str) : Option Str → Str
  | none => word
  | some corr =>
      if corr ≠ [] ∧ corr ≠ lowerStr clean then
        replaceAll word clean (fixCase lang clean corr)
      else word

/-- Tail of the per-token pass shared by both languages: the
always-capitalized table, then dictionary membership, then the correction
lookup (lines 265-301).  Only reached for token positions after the
first. -/
def spellTail (lang : Lang) (sp : SpellOracle) (word clean : Str) : Str :=
  if lowerStr clean ∈ alwaysCapitalized then
    (if clean ≠ pyCapitalize (lowerStr clean) then
      replaceAll word clean (pyCapitalize (lowerStr clean))
     else word)
  else if sp.mem (lowerStr clean) then word
  else corrStep lang word clean (sp.corr (lowerStr clean))

/-- The per-token pass of spell_check_message for the token at position i
(lines 217-301). -/
def processWord (lang : Lang) (sp : SpellOracle) (i : Nat) (word : Str) : Str :=
  if hasSpecial word then word
  else if pyIsUpper word && decide (1 < word.length) then word
  else if (stripPunct word).isEmpty then word
  else if i = 0 then
    (if headIsLower (stripPunct word) then
      replaceAll word (stripPunct word) (pyCapitalize (stripPunct word))
     else word)
  else
    match lang with
    | Lang.de =>
        if lowerStr (stripPunct word) ∈ capitalizedNounsDe then
          (if headIsLower (stripPunct word) then
            replaceAll word (stripPunct word) (pyCapitalize (stripPunct word))
           else word)
        else spellTail Lang.de sp word (stripPunct word)
    | Lang.en =>
        if lowerStr (stripPunct word) ∈ lowercaseWordsEn ∧
           headIsUpper (stripPunct word) = true then
          (if lowerStr (stripPunct word) ∈ alwaysCapitalized then word
           else replaceAll word (stripPunct word) (lowerStr (stripPunct word)))
        else spellTail Lang.en sp word (stripPunct word)

/-- The enumerated word loop (lines 217-301): one output token per input
token, position index threaded through. -/
def processWords (lang : Lang) (sp : SpellOracle) : Nat → List Str → List Str
  | _, [] => []
  | i, w :: ws => processWord lang sp i w :: processWords lang sp (i + 1) ws

/-- Oracle selection by detected language (line 127). -/
def oracleFor (lang : Lang) (spEn spDe : SpellOracle) : SpellOracle :=
  match lang with
  | Lang.de => spDe
  | Lang.en => spEn

/-- spell_check_message (lines 121-303): the external langdetect call is
injected as the detect parameter and the two pyspellchecker instances as
oracles.  Phrase substitutions run first, then the message is split on
whitespace, each token passes the per-token rules, and the results are
joined with single spaces. -/
def spellCheckMessage (detect : Str → Lang) (spEn spDe : SpellOracle)
    (message : Str) : Str :=
  joinSp (processWords (detect message) (oracleFor (detect message) spEn spDe) 0
    (splitWs (applyPhrases (detect message) message)))

/- ============ compliance predicates for the per-token pass ============ -/

/-- A token already satisfies the shared tail of the per-token rules: if
it is in the always-capitalized table it already has exactly the proper
casing, and otherwise its lowercased form is in the dictionary. -/
def spellTailOK (sp : SpellOracle) (clean : Str) : Bool :=
  if lowerStr clean ∈ alwaysCapitalized then
    decide (clean = pyCapitalize (lowerStr clean))
  else sp.mem (lowerStr clean)

/-- A token at position i already satisfies the capitalization and
word-list rules of the per-token pass and, when the spelling branch is
reached, is in the dictionary: running the pass leaves it unchanged. -/
def tokenOK (lang : Lang) (sp : SpellOracle) (i : Nat) (word : Str) : Bool :=
  hasSpecial word ||
  (pyIsUpper word && decide (1 < word.length)) ||
  (stripPunct word).isEmpty ||
  (if i = 0 then !headIsLower (stripPunct word)
   else match lang with
     | Lang.de =>
         if lowerStr (stripPunct word) ∈ capitalizedNounsDe then
           !headIsLower (stripPunct word)
         else spellTailOK sp (stripPunct word)
     | Lang.en =>
         if lowerStr (stripPunct word) ∈ lowercaseWordsEn ∧
            headIsUpper (stripPunct word) = true then
           decide (lowerStr (stripPunct word) ∈ alwaysCapitalized)
         else spellTailOK sp (stripPunct word))

/-- Pointwise compliance of a token list starting at position i. -/
def tokensOK (lang : Lang) (sp : SpellOracle) : Nat → List Str → Bool
  | _, [] => true
  | i, w :: ws => tokenOK lang sp i w && tokensOK lang sp (i + 1) ws

theorem spellTail_of_ok (lang : Lang) (sp : SpellOracle) (word clean : Str)
    (h : spellTailOK sp clean = true) : spellTail lang sp word clean = word := by
  unfold spellTailOK at h
  unfold spellTail
  by_cases hac : lowerStr clean ∈ alwaysCapitalized
  · rw [if_pos hac] at h
    have heq : clean = pyCapitalize (lowerStr clean) := of_decide_eq_true h
    rw [if_pos hac, if_neg (not_not_intro heq)]
  · rw [if_neg hac] at h
    rw [if_neg hac, if_pos h]

theorem processWord_of_ok (lang : Lang) (sp : SpellOracle) (i : Nat) (w : Str)
    (h : tokenOK lang sp i w = true) : processWord lang sp i w = w := by
  unfold tokenOK at h
  unfold processWord
  by_cases h1 : hasSpecial w = true
  · rw [if_pos h1]
  · rw [if_neg h1]
    have hb1 : hasSpecial w = false := by simpa using h1
    simp only [hb1, Bool.false_or] at h
    by_cases h2 : (pyIsUpper w && decide (1 < w.length)) = true
    · rw [if_pos h2]
    · rw [if_neg h2]
      have hb2 : (pyIsUpper w && decide (1 < w.length)) = false := by simpa using h2
      simp only [hb2, Bool.false_or] at h
      by_cases h3 : (stripPunct w).isEmpty = true
      · rw [if_pos h3]
      · rw [if_neg h3]
        have hb3 : (stripPunct w).isEmpty = false := by simpa using h3
        simp only [hb3, Bool.false_or] at h
        by_cases h4 : i = 0
        · rw [if_pos h4] at h
          rw [if_pos h4]
          have hl : headIsLower (stripPunct w) = false := by simpa using h
          rw [if_neg (by simp [hl])]
        · rw [if_neg h4] at h
          rw [if_neg h4]
          cases lang with
          | de =>
              by_cases h5 : lowerStr (stripPunct w) ∈ capitalizedNounsDe
              · rw [if_pos h5] at h
                have hl : headIsLower (stripPunct w) = false := by simpa using h
                rw [if_pos h5, if_neg (by simp [hl])]
              · rw [if_neg h5] at h
                rw [if_neg h5]
                exact spellTail_of_ok Lang.de sp w (stripPunct w) h
          | en =>
              by_cases h5 : lowerStr (stripPunct w) ∈ lowercaseWordsEn ∧
                  headIsUpper (stripPunct w) = true
              · rw [if_pos h5] at h
                have hin : lowerStr (stripPunct w) ∈ alwaysCapitalized :=
                  of_decide_eq_true h
                rw [if_pos h5, if_pos hin]
              · rw [if_neg h5] at h
                rw [if_neg h5]
                exact spellTail_of_ok Lang.en sp w (stripPunct w) h

theorem processWords_of_ok (lang : Lang) (sp : SpellOracle) :
    ∀ (i : Nat) (ws : List Str), tokensOK lang sp i ws = true →
      processWords lang sp i ws = ws := by
  intro i ws
  induction ws generalizing i with
  | nil => intro _; rfl
  | cons w ws ih =>
      intro h
      simp only [tokensOK, Bool.and_eq_true] at h
      simp only [processWords, processWord_of_ok lang sp i w h.1, ih (i + 1) h.2]

/-- Shared pipeline fact: when no phrase pattern occurs and every token is
compliant for the detected language, the corrector returns the message
with its whitespace normalized to single spaces. -/
theorem spellCheck_of_ok (detect : Str → Lang) (spEn spDe : SpellOracle) (m : Str)
    (hf : phraseFreeB (detect m) m = true)
    (ht : tokensOK (detect m) (oracleFor (detect m) spEn spDe) 0 (splitWs m) = true) :
    spellCheckMessage detect spEn spDe m = joinSp (splitWs m) := by
  unfold spellCheckMessage
  rw [applyPhrases_of_free _ _ hf, processWords_of_ok _ _ 0 _ ht]

/- ============ goodness of tokens through the per-token pass ============ -/

theorem pyCapitalize_ne_nil (s : Str) (h : s ≠ []) : pyCapitalize s ≠ [] := by
  cases s with
  | nil => exact absurd rfl h
  | cons c cs => simp [pyCapitalize]

theorem lowerStr_ne_nil (s : Str) (h : s ≠ []) : lowerStr s ≠ [] := by
  cases s with
  | nil => exact absurd rfl h
  | cons c cs => simp [lowerStr]

theorem noWhite_fixCase (lang : Lang) (clean corr : Str)
    (h : noWhite corr = true) : noWhite (fixCase lang clean corr) = true := by
  cases lang with
  | de =>
      simp only [fixCase]
      split
      · exact noWhite_pyCapitalize corr h
      · split
        · exact noWhite_pyCapitalize corr h
        · exact noWhite_lowerStr corr h
  | en =>
      simp only [fixCase]
      split
      · exact noWhite_lowerStr corr h
      · exact h

theorem fixCase_ne_nil (lang : Lang) (clean corr : Str) (h : corr ≠ []) :
    fixCase lang clean corr ≠ [] := by
  cases lang with
  | de =>
      simp only [fixCase]
      split
      · exact pyCapitalize_ne_nil corr h
      · split
        · exact pyCapitalize_ne_nil corr h
        · exact lowerStr_ne_nil corr h
  | en =>
      simp only [fixCase]
      split
      · exact lowerStr_ne_nil corr h
      · exact h

theorem corrStep_good (lang : Lang) (word clean : Str) (o : Option Str)
    (hne : word ≠ []) (hw : noWhite word = true)
    (ho : ∀ s, o = some s → noWhite s = true) :
    corrStep lang word clean o ≠ [] ∧
      noWhite (corrStep lang word clean o) = true := by
  cases o with
  | none => exact ⟨hne, hw⟩
  | some corr =>
      simp only [corrStep]
      by_cases hguard : corr ≠ [] ∧ corr ≠ lowerStr clean
      · rw [if_pos hguard]
        exact ⟨replaceAll_ne_nil _ _ _ hne
            (fixCase_ne_nil lang clean corr hguard.1),
          noWhite_replaceAll _ _ _ hw
            (noWhite_fixCase lang clean corr (ho corr rfl))⟩
      · rw [if_neg hguard]
        exact ⟨hne, hw⟩

theorem spellTail_good (lang : Lang) (sp : SpellOracle) (word clean : Str)
    (hne : word ≠ []) (hw : noWhite word = true)
    (hcl : clean ≠ []) (hclw : noWhite clean = true)
    (hc : ∀ x s, sp.corr x = some s → noWhite s = true) :
    spellTail lang sp word clean ≠ [] ∧
      noWhite (spellTail lang sp word clean) = true := by
  unfold spellTail
  by_cases hac : lowerStr clean ∈ alwaysCapitalized
  · rw [if_pos hac]
    by_cases hch : clean ≠ pyCapitalize (lowerStr clean)
    · rw [if_pos hch]
      exact ⟨replaceAll_ne_nil _ _ _ hne
          (pyCapitalize_ne_nil _ (lowerStr_ne_nil _ hcl)),
        noWhite_replaceAll _ _ _ hw
          (noWhite_pyCapitalize _ (noWhite_lowerStr _ hclw))⟩
    · rw [if_neg hch]
      exact ⟨hne, hw⟩
  · rw [if_neg hac]
    by_cases hmem : sp.mem (lowerStr clean) = true
    · rw [if_pos hmem]
      exact ⟨hne, hw⟩
    · rw [if_neg hmem]
      exact corrStep_good lang word clean (sp.corr (lowerStr clean)) hne hw
        (fun s hs => hc (lowerStr clean) s hs)

theorem processWord_good (lang : Lang) (sp : SpellOracle) (i : Nat) (w : Str)
    (hne : w ≠ []) (hw : noWhite w = true)
    (hc : ∀ x s, sp.corr x = some s → noWhite s = true) :
    processWord lang sp i w ≠ [] ∧ noWhite (processWord lang sp i w) = true := by
  unfold processWord
  by_cases h1 : hasSpecial w = true
  · rw [if_pos h1]; exact ⟨hne, hw⟩
  · rw [if_neg h1]
    by_cases h2 : (pyIsUpper w && decide (1 < w.length)) = true
    · rw [if_pos h2]; exact ⟨hne, hw⟩
    · rw [if_neg h2]
      by_cases h3 : (stripPunct w).isEmpty = true
      · rw [if_pos h3]; exact ⟨hne, hw⟩
      · rw [if_neg h3]
        have hcl : stripPunct w ≠ [] := by
          simpa [List.isEmpty_iff] using h3
        have hclw : noWhite (stripPunct w) = true := noWhite_stripPunct w hw
        by_cases h4 : i = 0
        · rw [if_pos h4]
          by_cases h5 : headIsLower (stripPunct w) = true
          · rw [if_pos h5]
            exact ⟨replaceAll_ne_nil _ _ _ hne (pyCapitalize_ne_nil _ hcl),
              noWhite_replaceAll _ _ _ hw (noWhite_pyCapitalize _ hclw)⟩
          · rw [if_neg h5]; exact ⟨hne, hw⟩
        · rw [if_neg h4]
          cases lang with
          | de =>
              by_cases h6 : lowerStr (stripPunct w) ∈ capitalizedNounsDe
              · rw [if_pos h6]
                by_cases h7 : headIsLower (stripPunct w) = true
                · rw [if_pos h7]
                  exact ⟨replaceAll_ne_nil _ _ _ hne (pyCapitalize_ne_nil _ hcl),
                    noWhite_replaceAll _ _ _ hw (noWhite_pyCapitalize _ hclw)⟩
                · rw [if_neg h7]; exact ⟨hne, hw⟩
              · rw [if_neg h6]
                exact spellTail_good Lang.de sp w (stripPunct w) hne hw hcl hclw hc
          | en =>
              by_cases h6 : lowerStr (stripPunct w) ∈ lowercaseWordsEn ∧
                  headIsUpper (stripPunct w) = true
              · rw [if_pos h6]
                by_cases h7 : lowerStr (stripPunct w) ∈ alwaysCapitalized
                · rw [if_pos h7]; exact ⟨hne, hw⟩
                · rw [if_neg h7]
                  exact ⟨replaceAll_ne_nil _ _ _ hne (lowerStr_ne_nil _ hcl),
                    noWhite_replaceAll _ _ _ hw (noWhite_lowerStr _ hclw)⟩
              · rw [if_neg h6]
                exact spellTail_good Lang.en sp w (stripPunct w) hne hw hcl hclw hc

theorem processWords_length (lang : Lang) (sp : SpellOracle) :
    ∀ (i : Nat) (ws : List Str),
      (processWords lang sp i ws).length = ws.length := by
  intro i ws
  induction ws generalizing i with
  | nil => rfl
  | cons w ws ih => simp [processWords, ih]

theorem processWords_good (lang : Lang) (sp : SpellOracle)
    (hc : ∀ x s, sp.corr x = some s → noWhite s = true) :
    ∀ (i : Nat) (ws : List Str), (∀ w ∈ ws, w ≠ [] ∧ noWhite w = true) →
      ∀ t ∈ processWords lang sp i ws, t ≠ [] ∧ noWhite t = true := by
  intro i ws
  induction ws generalizing i with
  | nil => intro _ t ht; simp [processWords] at ht
  | cons w ws ih =>
      intro hws t ht
      simp only [processWords, List.mem_cons] at ht
      rcases ht with rfl | ht
      · have hw := hws w (by simp)
        exact processWord_good lang sp i w hw.1 hw.2 hc
      · exact ih (i + 1) (fun x hx => hws x (by simp [hx])) t ht

/- ============ shared concrete instances for the corrector claims ============ -/

/-- Oracle whose dictionary contains every word; the correction lookup is
then never consulted. -/
def oracleAllKnown : SpellOracle := { mem := fun _ => true, corr := fun _ => none }

/-- Oracle with an empty dictionary whose correction maps the single
letter b to the word be and fails on everything else. -/
def oracleCorrectsB : SpellOracle :=
  { mem := fun _ => false,
    corr := fun x => if x = ['b'] then some ['b', 'e'] else none }

/-- Language detector fixed on English. -/
def detectEnC : Str → Lang := fun _ => Lang.en

/-- Language detector fixed on German. -/
def detectDeC : Str → Lang := fun _ => Lang.de

/- ===================== C2: phrase-substitution casing ===================== -/

/-- C2 counterexample: in the German table the pattern Bachelor Thesis
matches the all-lowercase span bachelor thesis case-insensitively, its
first letter is lowercase, yet the substituted replacement Bachelorarbeit
begins with an uppercase letter, so the first-letter case of the matched
span is not preserved. -/
theorem c2_counterexample :
    headIsUpper (("bachelor thesis".data.drop 0).take
        ("Bachelor Thesis".data).length) = false ∧
    ("Bachelor Thesis".data, "Bachelorarbeit".data) ∈ tableDe ∧
    findMatch "Bachelor Thesis".data "bachelor thesis".data = some 0 ∧
    applyPhrases Lang.de "bachelor thesis".data = "Bachelorarbeit".data ∧
    headIsUpper "Bachelorarbeit".data = true ∧
    spellCheckMessage detectDeC oracleAllKnown oracleAllKnown
      "bachelor thesis".data = "Bachelorarbeit".data := by
  refine ⟨by decide, by decide, by decide, by decide, by decide, by decide⟩

/-- C2 amended: every English-table substitution preserves the case of the
first letter of the matched span; every German-table substitution instead
produces a replacement whose first letter is always uppercase, regardless
of the case of the matched span. -/
theorem c2_amended :
    (∀ pr ∈ tableEn, ∀ (s : Str) (i : Nat), findMatch pr.1 s = some i →
      headIsUpper (substRepl pr s i) =
        headIsUpper ((s.drop i).take pr.1.length)) ∧
    (∀ pr ∈ tableDe, ∀ (s : Str) (i : Nat), findMatch pr.1 s = some i →
      headIsUpper (substRepl pr s i) = true) := by
  constructor
  · intro pr hpr s i _
    simp only [tableEn, List.mem_cons, List.not_mem_nil, or_false] at hpr
    rcases hpr with rfl | rfl | rfl | rfl | rfl <;>
      · unfold substRepl
        split
        · rename_i hm
          rw [hm]
          decide
        · rename_i hm
          simp only [Bool.not_eq_true] at hm
          rw [hm]
          decide
  · intro pr hpr s i _
    simp only [tableDe, List.mem_cons, List.not_mem_nil, or_false] at hpr
    rcases hpr with rfl | rfl | rfl | rfl <;>
      · unfold substRepl
        split <;> decide

/-- C2 witness: a fired English substitution preserving a lowercase first
letter, and a fired German substitution on a lowercase span. -/
theorem c2_witness :
    headIsUpper (substRepl
        ("bachelor thesis".data, "bachelor".data ++ [apos] ++ "s thesis".data)
        "My bachelor thesis".data 3) =
      headIsUpper (("My bachelor thesis".data.drop 3).take
        ("bachelor thesis".data).length) ∧
    headIsUpper (substRepl ("Bachelor Thesis".data, "Bachelorarbeit".data)
      "bachelor thesis".data 0) = true :=
  ⟨c2_amended.1 _ (by decide) "My bachelor thesis".data 3 (by decide),
   c2_amended.2 _ (by decide) "bachelor thesis".data 0 (by decide)⟩

/- ===================== C3: idempotence ===================== -/

/-- C3 counterexample: the message Update bachelor(two spaces)thesis meets
every compliance condition the claim lists — no phrase pattern matches it
and every token passes the per-token rules with a full dictionary — yet
the corrector is not idempotent on it: the first pass collapses the double
space, and on the collapsed output the phrase rule then fires. -/
theorem c3_counterexample :
    phraseFreeB Lang.en "Update bachelor  thesis".data = true ∧
    tokensOK Lang.en oracleAllKnown 0
      (splitWs "Update bachelor  thesis".data) = true ∧
    spellCheckMessage detectEnC oracleAllKnown oracleAllKnown
        (spellCheckMessage detectEnC oracleAllKnown oracleAllKnown
          "Update bachelor  thesis".data) ≠
      spellCheckMessage detectEnC oracleAllKnown oracleAllKnown
        "Update bachelor  thesis".data := by
  refine ⟨by decide, by decide, by decide⟩

/-- C3 amended: for messages that are additionally whitespace-normalized
(single spaces, no leading or trailing whitespace), compliance with the
case, word-list and dictionary rules and absence of phrase matches make
spell_check_message idempotent. -/
theorem c3_amended (detect : Str → Lang) (spEn spDe : SpellOracle) (m : Str)
    (hnorm : joinSp (splitWs m) = m)
    (hf : phraseFreeB (detect m) m = true)
    (ht : tokensOK (detect m) (oracleFor (detect m) spEn spDe) 0
      (splitWs m) = true) :
    spellCheckMessage detect spEn spDe (spellCheckMessage detect spEn spDe m) =
      spellCheckMessage detect spEn spDe m := by
  have h1 : spellCheckMessage detect spEn spDe m = m := by
    rw [spellCheck_of_ok detect spEn spDe m hf ht, hnorm]
  rw [h1, h1]

/-- C3 witness: a concrete normalized compliant message on which the
amended idempotence theorem applies. -/
theorem c3_witness :
    joinSp (splitWs "Fix the bug".data) = "Fix the bug".data ∧
    phraseFreeB Lang.en "Fix the bug".data = true ∧
    tokensOK Lang.en oracleAllKnown 0 (splitWs "Fix the bug".data) = true ∧
    spellCheckMessage detectEnC oracleAllKnown oracleAllKnown
        (spellCheckMessage detectEnC oracleAllKnown oracleAllKnown
          "Fix the bug".data) =
      spellCheckMessage detectEnC oracleAllKnown oracleAllKnown
        "Fix the bug".data :=
  ⟨by decide, by decide, by decide,
   c3_amended detectEnC oracleAllKnown oracleAllKnown "Fix the bug".data
     (by decide) (by decide) (by decide)⟩

/- ===================== C4: unchanged when no rule fires ===================== -/

/-- C4 counterexample: on Fix(two spaces)bug no phrase pattern matches and
every token passes the per-token rules unchanged, yet the output differs
from the input, because the final join collapses the double space. -/
theorem c4_counterexample :
    phraseFreeB Lang.en "Fix  bug".data = true ∧
    tokensOK Lang.en oracleAllKnown 0 (splitWs "Fix  bug".data) = true ∧
    spellCheckMessage detectEnC oracleAllKnown oracleAllKnown
      "Fix  bug".data ≠ "Fix  bug".data := by
  refine ⟨by decide, by decide, by decide⟩

/-- C4 amended: when no phrase pattern matches and every token passes the
per-token rules, the output is the input with its whitespace normalized to
single separating spaces; it equals the input exactly when the input is
already normalized. -/
theorem c4_amended (detect : Str → Lang) (spEn spDe : SpellOracle) (m : Str)
    (hf : phraseFreeB (detect m) m = true)
    (ht : tokensOK (detect m) (oracleFor (detect m) spEn spDe) 0
      (splitWs m) = true) :
    spellCheckMessage detect spEn spDe m = joinSp (splitWs m) ∧
      (joinSp (splitWs m) = m → spellCheckMessage detect spEn spDe m = m) := by
  have h := spellCheck_of_ok detect spEn spDe m hf ht
  exact ⟨h, fun hn => by rw [h, hn]⟩

/-- C4 witness: a concrete compliant normalized message returned exactly
unchanged. -/
theorem c4_witness :
    spellCheckMessage detectEnC oracleAllKnown oracleAllKnown "Add tests".data =
      joinSp (splitWs "Add tests".data) ∧
    spellCheckMessage detectEnC oracleAllKnown oracleAllKnown "Add tests".data =
      "Add tests".data :=
  ⟨(c4_amended detectEnC oracleAllKnown oracleAllKnown "Add tests".data
      (by decide) (by decide)).1,
   (c4_amended detectEnC oracleAllKnown oracleAllKnown "Add tests".data
      (by decide) (by decide)).2 (by decide)⟩

/- ===================== C8: special and all-caps tokens ===================== -/

/-- C8 counterexample: the single-letter token B satisfies Python
isupper(), but the all-caps skip requires length strictly greater than
one, so the token reaches the spelling branch and is rewritten when the
dictionary lacks it: with an empty dictionary correcting b to be, Fix B
becomes Fix be. -/
theorem c8_counterexample :
    pyIsUpper ['B'] = true ∧
    processWord Lang.en oracleCorrectsB 1 ['B'] = ['b', 'e'] ∧
    (['b', 'e'] : Str) ≠ ['B'] ∧
    spellCheckMessage detectEnC oracleCorrectsB oracleCorrectsB
      "Fix B".data = "Fix be".data := by
  refine ⟨by decide, by decide, by decide, by decide⟩

/-- C8 amended: a token containing one of the special characters is passed
through unchanged at every position, and an all-caps token of length
greater than one is passed through unchanged at every position; a
single-character uppercase token is not covered by the skip and may be
altered by the spelling fallback. -/
theorem c8_amended (lang : Lang) (sp : SpellOracle) (i : Nat) (w : Str)
    (h : hasSpecial w = true ∨ (pyIsUpper w = true ∧ 1 < w.length)) :
    processWord lang sp i w = w := by
  unfold processWord
  rcases h with h | ⟨h1, h2⟩
  · rw [if_pos h]
  · by_cases hs : hasSpecial w = true
    · rw [if_pos hs]
    · rw [if_neg hs, if_pos (by simp [h1, h2])]

/-- C8 witness: a token with a hyphen and an all-caps acronym, both kept
verbatim. -/
theorem c8_witness :
    processWord Lang.en oracleAllKnown 3 "a-b".data = "a-b".data ∧
    processWord Lang.de oracleCorrectsB 2 "ABC".data = "ABC".data :=
  ⟨c8_amended Lang.en oracleAllKnown 3 "a-b".data (Or.inl (by decide)),
   c8_amended Lang.de oracleCorrectsB 2 "ABC".data (Or.inr ⟨by decide, by decide⟩)⟩

/- ===================== C9: token-count preservation ===================== -/

/-- C9 counterexample: under German detection the phrase substitution
turns the two-token message Bachelor Thesis into the single token
Bachelorarbeit, so the output has fewer whitespace-separated tokens than
the input. -/
theorem c9_counterexample :
    (splitWs "Bachelor Thesis".data).length = 2 ∧
    spellCheckMessage detectDeC oracleAllKnown oracleAllKnown
      "Bachelor Thesis".data = "Bachelorarbeit".data ∧
    (splitWs (spellCheckMessage detectDeC oracleAllKnown oracleAllKnown
      "Bachelor Thesis".data)).length = 1 := by
  refine ⟨by decide, by decide, by decide⟩

/-- C9 amended: when no phrase pattern of the detected language matches
the message and the injected correction oracle only returns
whitespace-free words, the output of spell_check_message has exactly as
many whitespace-separated tokens as the input: the per-token loop emits
one output word per input word and no emitted word is empty or contains
whitespace. -/
theorem c9_amended (detect : Str → Lang) (spEn spDe : SpellOracle) (m : Str)
    (hf : phraseFreeB (detect m) m = true)
    (hc : ∀ x s, (oracleFor (detect m) spEn spDe).corr x = some s →
      noWhite s = true) :
    (splitWs (spellCheckMessage detect spEn spDe m)).length =
      (splitWs m).length := by
  unfold spellCheckMessage
  rw [applyPhrases_of_free _ _ hf]
  rw [splitWs_joinSp _ (processWords_good _ _ hc 0 _ (splitWs_tokens m))]
  exact processWords_length _ _ 0 _

/-- C9 witness: a concrete English message with the trivial
correction-free oracle keeps its token count. -/
theorem c9_witness :
    (splitWs (spellCheckMessage detectEnC oracleAllKnown oracleAllKnown
      "Hello world".data)).length = (splitWs "Hello world".data).length :=
  c9_amended detectEnC oracleAllKnown oracleAllKnown "Hello world".data
    (by decide) (fun x s h => by simp [detectEnC, oracleFor, oracleAllKnown] at h)

/- ===================== C5: startup / fatal-exit model ===================== -/

/-- Outcome of a program startup path: the exit code taken through the
explicit argument and environment checks (none when execution proceeds),
and whether a usage message is printed on that path. -/
structure ExitReport where
  code : Option Nat
  usage : Bool
deriving DecidableEq

/-- Startup checks of git-fix-commits.py main (lines 549-569): fewer than
two argv entries exits 1 with usage; a nonexistent path exits 1 with an
error line only; an empty repository list exits 1 with an error line only. -/
def gitFixStartup (argc : Nat) (pathExists : Bool) (numRepos : Nat) : ExitReport :=
  if argc < 2 then ⟨some 1, true⟩
  else if !pathExists then ⟨some 1, false⟩
  else if numRepos = 0 then ⟨some 1, false⟩
  else ⟨none, false⟩

/-- Startup checks of music-diff.py __main__ (lines 173-191): any argv
length other than three exits 1 with usage; nothing else exits. -/
def musicDiffStartup (argc : Nat) : ExitReport :=
  if argc ≠ 3 then ⟨some 1, true⟩ else ⟨none, false⟩

/-- Startup of monthly-activity.py __main__ (lines 125-138): no argument
validation exists; the hardcoded timeline.csv is opened without a handler,
so a missing file raises an uncaught exception and the interpreter
terminates with exit code 1 and no usage message. -/
def monthlyStartup (csvExists : Bool) : ExitReport :=
  if csvExists then ⟨none, false⟩ else ⟨some 1, false⟩

/-- C5 counterexample: with a valid argument count (argc = 2) and an
existing root path, git-fix-commits still terminates with exit code 1 when
zero repositories are found, and prints no usage message — a fatal nonzero
exit outside the two conditions the claim allows. -/
theorem c5_counterexample :
    gitFixStartup 2 true 0 = ⟨some 1, false⟩ ∧ ¬ 2 < 2 ∧
    monthlyStartup false = ⟨some 1, false⟩ := by
  refine ⟨rfl, by decide, rfl⟩

/-- C5 amended: the fatal nonzero exits are exactly: git-fix-commits on
missing argument (with usage), nonexistent path (no usage) or zero
repositories found (no usage); music-diff on an argv length other than
three (with usage); monthly-activity on a missing timeline.csv (uncaught
exception, no usage). Not every fatal exit prints a usage message. -/
theorem c5_amended :
    (∀ argc pathExists numRepos,
      (gitFixStartup argc pathExists numRepos).code = some 1 ↔
        (argc < 2 ∨ pathExists = false ∨ numRepos = 0)) ∧
    (∀ argc pathExists numRepos,
      (gitFixStartup argc pathExists numRepos).usage = true ↔ argc < 2) ∧
    (∀ argc, (musicDiffStartup argc).code = some 1 ↔ argc ≠ 3) ∧
    (∀ argc, (musicDiffStartup argc).usage = true ↔ argc ≠ 3) ∧
    (∀ csvExists, (monthlyStartup csvExists).code = some 1 ↔ csvExists = false) ∧
    (∀ csvExists, (monthlyStartup csvExists).usage = false) := by
  refine ⟨?_, ?_, ?_, ?_, ?_, ?_⟩
  · intro argc pathExists numRepos
    unfold gitFixStartup
    split
    · simp; omega
    · split
      · rename_i h1 h2
        simp at h2 ⊢
        exact Or.inr (Or.inl h2)
      · split
        · rename_i h1 h2 h3
          simp at h2 ⊢
          omega
        · rename_i h1 h2 h3
          simp at h2 ⊢
          refine ⟨by omega, h2, h3⟩
  · intro argc pathExists numRepos
    unfold gitFixStartup
    split
    · simpa using by omega
    · split <;> [skip; split] <;> simp <;> omega
  · intro argc; unfold musicDiffStartup; split <;> simp_all
  · intro argc; unfold musicDiffStartup; split <;> simp_all
  · intro csvExists; unfold monthlyStartup; split <;> simp_all
  · intro csvExists; unfold monthlyStartup; split <;> simp_all

/- ===================== C7: folder diff partition ===================== -/

/-- The three difference sets computed by compare_folders in music-diff.py
(lines 128-130): keys only in folder 1, keys only in folder 2, keys in
both. -/
def compareFolders (files1 files2 : Finset Str) :
    Finset Str × Finset Str × Finset Str :=
  (files1 \ files2, files2 \ files1, files1 ∩ files2)

/-- C7: the sets only-in-1, only-in-2 and in-both computed by
compare_folders are pairwise disjoint and their union is exactly the union
of the two key sets. -/
theorem c7_partition (files1 files2 : Finset Str) :
    Disjoint (compareFolders files1 files2).1 (compareFolders files1 files2).2.1 ∧
    Disjoint (compareFolders files1 files2).1 (compareFolders files1 files2).2.2 ∧
    Disjoint (compareFolders files1 files2).2.1 (compareFolders files1 files2).2.2 ∧
    (compareFolders files1 files2).1 ∪ (compareFolders files1 files2).2.1 ∪
      (compareFolders files1 files2).2.2 = files1 ∪ files2 := by
  unfold compareFolders
  refine ⟨?_, ?_, ?_, ?_⟩
  · rw [Finset.disjoint_left]
    intro a ha hb
    simp only [Finset.mem_sdiff] at ha hb
    exact hb.2 ha.1
  · rw [Finset.disjoint_left]
    intro a ha hb
    simp only [Finset.mem_sdiff, Finset.mem_inter] at ha hb
    exact ha.2 hb.2
  · rw [Finset.disjoint_left]
    intro a ha hb
    simp only [Finset.mem_sdiff, Finset.mem_inter] at ha hb
    exact ha.2 hb.1
  · ext a
    simp only [Finset.mem_union, Finset.mem_sdiff, Finset.mem_inter]
    tauto

/- ===================== C1: abort semantics in the batch ===================== -/

/-- The value get_user_choice_for_commit eventually returns for one
prompt (lines 318-360): accept carrying the message to use (covering both
acceptance of the suggestion and a confirmed manual edit), skip, or abort;
the re-prompting loop can only exit through one of these. -/
inductive Choice
  | accept : Str → Choice
  | skip : Choice
  | abort : Choice

/-- One repository as the batch sees it: whether its working tree is
dirty, the previewed (original, suggested) message pairs, the console
oracle giving the outcome of the n-th prompt, and the final yes/no
confirmation answer. -/
structure RepoRun where
  dirty : Bool
  changes : List (Str × Str)
  user : Nat → Choice
  finalConfirm : Bool

/-- The review loop of rewrite_history (lines 455-471): prompts are
numbered from 1; abort anywhere discards every collected pair and stops
the loop (none); accept records the pair when the new message differs
from the original; skip records nothing. -/
def reviewLoop (user : Nat → Choice) : Nat → List (Str × Str) →
    Option (List (Str × Str))
  | _, [] => some []
  | idx, (orig, _) :: rest =>
      match user idx with
      | Choice.abort => none
      | Choice.skip => reviewLoop user (idx + 1) rest
      | Choice.accept newMsg =>
          match reviewLoop user (idx + 1) rest with
          | none => none
          | some tail =>
              some (if newMsg ≠ orig then (orig, newMsg) :: tail else tail)

/-- Whether rewrite_history reaches rewrite_commits_with_script for one
repository (lines 446-493): an empty change list, an abort during review,
an empty accepted list, or a refused final confirmation all return False
before the rewrite is invoked. -/
def rewriteHistoryInvokes (r : RepoRun) : Bool :=
  if r.changes.isEmpty then false
  else
    match reviewLoop r.user 1 r.changes with
    | none => false
    | some cc => if cc.isEmpty then false else r.finalConfirm

/-- Whether process_repository reaches the history rewrite (lines
503-539): a dirty working tree skips the repository; a repository with no
commits yields an empty change list, covered by the empty-changes guard. -/
def processRepositoryInvokes (r : RepoRun) : Bool :=
  if r.dirty then false else rewriteHistoryInvokes r

/-- The repository loop of main (lines 581-585): every repository is
processed unconditionally, regardless of earlier outcomes. -/
def batchInvocations (rs : List RepoRun) : List Bool :=
  rs.map processRepositoryInvokes

/-- A repository whose user aborts at the first prompt. -/
def abortRepo : RepoRun :=
  { dirty := false, changes := [("Fix bug".data, "Fix bugs".data)],
    user := fun _ => Choice.abort, finalConfirm := true }

/-- A repository whose user accepts the suggestion and confirms. -/
def acceptRepo : RepoRun :=
  { dirty := false, changes := [("Fix bug".data, "Fix bugs".data)],
    user := fun _ => Choice.accept "Fix bugs".data, finalConfirm := true }

/-- C1 counterexample: abort chosen in the first repository does not halt
the batch — the main loop still processes the second repository, where the
user accepts and rewrite_commits_with_script is invoked, so commits after
the abort point are still changed. -/
theorem c1_counterexample :
    reviewLoop abortRepo.user 1 abortRepo.changes = none ∧
    batchInvocations [abortRepo, acceptRepo] = [false, true] :=
  ⟨rfl, rfl⟩

/-- C1 amended: abort during review prevents the history rewrite for the
repository in which it was chosen — rewrite_commits_with_script is not
reached there and none of that repository's commits change — but the
batch does not halt: main continues with every subsequent repository,
where the rewrite may still run. -/
theorem c1_amended (r : RepoRun)
    (habort : reviewLoop r.user 1 r.changes = none) :
    processRepositoryInvokes r = false := by
  unfold processRepositoryInvokes rewriteHistoryInvokes
  by_cases hd : r.dirty = true
  · rw [if_pos hd]
  · rw [if_neg hd]
    by_cases hce : r.changes.isEmpty = true
    · rw [if_pos hce]
    · rw [if_neg hce, habort]

/-- C1 witness: the aborting repository never reaches the rewrite. -/
theorem c1_witness : processRepositoryInvokes abortRepo = false :=
  c1_amended abortRepo rfl

/- ===================== C6: monthly timeline aggregation ===================== -/

/-- One CSV record of timeline.csv with the fields the aggregator reads.
A numeric field is none when the CSV field is empty or missing from the
row, in which case the source substitutes 0.0; float arithmetic is
modelled exactly over the rationals. -/
structure TRow where
  timestamp : Str
  recordType : Str
  activityType : Str
  distance : Option ℚ
  duration : Option ℚ
deriving DecidableEq

/-- One aggregation bucket (lines 13-19). -/
structure MonthBucket where
  activities : List TRow
  totalDistance : ℚ
  totalDuration : ℚ
  activityCounts : Str → Nat
  visitCounts : Nat

/-- The defaultdict default (lines 13-19). -/
def emptyBucket : MonthBucket :=
  { activities := [], totalDistance := 0, totalDuration := 0,
    activityCounts := fun _ => 0, visitCounts := 0 }

/-- The bucket key: the first seven characters of the timestamp
(line 27). -/
def monthKey (r : TRow) : Str := r.timestamp.take 7

/-- Folding one row into a bucket (lines 32-46): the row is appended to
the activities, the distance and duration sums grow by the field value or
zero, and the per-type or visit counters advance by record type. -/
def addRow (b : MonthBucket) (r : TRow) : MonthBucket :=
  { activities := b.activities ++ [r]
    totalDistance := b.totalDistance + r.distance.getD 0
    totalDuration := b.totalDuration + r.duration.getD 0
    activityCounts :=
      if r.recordType = "activity".data then
        fun t => if t = r.activityType then b.activityCounts t + 1
                 else b.activityCounts t
      else b.activityCounts
    visitCounts :=
      if r.recordType = "visit".data then b.visitCounts + 1
      else b.visitCounts }

/-- One loop iteration of parse_timeline_by_month: update the bucket of
the row's month, leave the rest of the map unchanged. -/
def bucketStep (m : Str → MonthBucket) (r : TRow) : Str → MonthBucket :=
  fun k => if k = monthKey r then addRow (m k) r else m k

/-- parse_timeline_by_month (lines 10-48) as the map from month keys to
buckets after one pass over the CSV rows. -/
def parseTimelineByMonth (rows : List TRow) : Str → MonthBucket :=
  rows.foldl bucketStep (fun _ => emptyBucket)

theorem foldl_bucketStep (rows : List TRow) :
    ∀ (m0 : Str → MonthBucket) (k : Str),
      (rows.foldl bucketStep m0 k).activities =
          (m0 k).activities ++
            rows.filter (fun r => decide (monthKey r = k)) ∧
      (rows.foldl bucketStep m0 k).totalDistance =
          (m0 k).totalDistance +
            ((rows.filter (fun r => decide (monthKey r = k))).map
              (fun r => r.distance.getD 0)).sum ∧
      (rows.foldl bucketStep m0 k).totalDuration =
          (m0 k).totalDuration +
            ((rows.filter (fun r => decide (monthKey r = k))).map
              (fun r => r.duration.getD 0)).sum := by
  induction rows with
  | nil => intro m0 k; simp
  | cons r rows ih =>
      intro m0 k
      rw [List.foldl_cons]
      obtain ⟨ih1, ih2, ih3⟩ := ih (bucketStep m0 r) k
      by_cases hk : monthKey r = k
      · have hb : bucketStep m0 r k = addRow (m0 k) r := by
          unfold bucketStep
          rw [if_pos hk.symm]
        refine ⟨?_, ?_, ?_⟩
        · rw [ih1, hb, List.filter_cons_of_pos (by simpa using hk)]
          simp [addRow]
        · rw [ih2, hb, List.filter_cons_of_pos (by simpa using hk)]
          simp [addRow, add_assoc]
        · rw [ih3, hb, List.filter_cons_of_pos (by simpa using hk)]
          simp [addRow, add_assoc]
      · have hb : bucketStep m0 r k = m0 k := by
          unfold bucketStep
          rw [if_neg (fun he => hk he.symm)]
        refine ⟨?_, ?_, ?_⟩
        · rw [ih1, hb, List.filter_cons_of_neg (by simpa using hk)]
        · rw [ih2, hb, List.filter_cons_of_neg (by simpa using hk)]
        · rw [ih3, hb, List.filter_cons_of_neg (by simpa using hk)]

/-- C6: every record lands in the bucket named by the first seven
characters of its timestamp — in particular a record stamped
2025-06-15T10:00:00 lands in bucket 2025-06 — and each bucket's distance
and duration totals are exactly the sums over the records of that bucket,
with empty or absent numeric fields contributing zero. -/
theorem c6_bucketing (rows : List TRow) (k : Str) :
    (parseTimelineByMonth rows k).activities =
        rows.filter (fun r => decide (monthKey r = k)) ∧
    (parseTimelineByMonth rows k).totalDistance =
        ((rows.filter (fun r => decide (monthKey r = k))).map
          (fun r => r.distance.getD 0)).sum ∧
    (parseTimelineByMonth rows k).totalDuration =
        ((rows.filter (fun r => decide (monthKey r = k))).map
          (fun r => r.duration.getD 0)).sum ∧
    ∀ (rt at' : Str) (d du : Option ℚ),
      monthKey ⟨"2025-06-15T10:00:00".data, rt, at', d, du⟩ =
        "2025-06".data := by
  obtain ⟨h1, h2, h3⟩ := foldl_bucketStep rows (fun _ => emptyBucket) k
  refine ⟨?_, ?_, ?_, fun rt at' d du => rfl⟩
  · simpa [emptyBucket] using h1
  · simpa [emptyBucket] using h2
  · simpa [emptyBucket] using h3

/-- A concrete activity row used to instantiate the aggregation. -/
def sampleRow : TRow :=
  { timestamp := "2025-06-15T10:00:00".data, recordType := "activity".data,
    activityType := "walking".data, distance := some 1200,
    duration := some 600 }

/-- C6 witness: the aggregation theorem evaluated on one concrete row. -/
theorem c6_witness :
    (parseTimelineByMonth [sampleRow] "2025-06".data).activities =
      [sampleRow] := by
  rw [(c6_bucketing [sampleRow] "2025-06".data).1]
  rfl

/- ===================== C10: music file collection ===================== -/

/-- One entry yielded by the recursive traversal of the scanned folder:
its path relative to the root as a nonempty component list, and whether it
is a regular file. -/
structure FsEntry where
  relParts : List Str
  isFile : Bool

/-- The final component of the entry path (pathlib name). -/
def entryName (e : FsEntry) : Str := e.relParts.getLastD []

/-- pathlib suffix of a name: the substring from the last dot on, provided
that dot is neither the first nor the last character of the name. -/
def pathSuffix (name : Str) : Str :=
  match name.reverse.findIdx? (fun c => decide (c = '.')) with
  | none => []
  | some j =>
      if 0 < name.length - 1 - j ∧ name.length - 1 - j < name.length - 1 then
        name.drop (name.length - 1 - j)
      else []

/-- Path components joined with the separator. -/
def joinPath : List Str → Str
  | [] => []
  | [p] => p
  | p :: ps => p ++ '/' :: joinPath ps

/-- The default extension allow-list (line 66), all lowercase. -/
def musicExtensions : List Str :=
  ([".mp3", ".flac", ".wav", ".m4a", ".aac", ".ogg", ".wma"] :
    List String).map String.data

/-- get_music_files (lines 91-95): keep the regular files whose lowercased
suffix is in the allow-list, recording the relative path as key and the
full path under the scanned root as value. -/
def getMusicFiles (root : Str) : List FsEntry → List (Str × Str)
  | [] => []
  | e :: rest =>
      if e.isFile = true ∧ lowerStr (pathSuffix (entryName e)) ∈ musicExtensions then
        (joinPath e.relParts, joinPath (root :: e.relParts)) ::
          getMusicFiles root rest
      else getMusicFiles root rest

/-- C10: an entry of the returned map exists exactly for each traversed
regular file whose lowercased suffix is in the allow-list — so the match
is case-insensitive, with .MP3 matching .mp3 as a concrete instance — and
each entry maps the path relative to the scanned root to the full path
under that root. -/
theorem c10_collection (root : Str) (fs : List FsEntry) :
    (∀ kv : Str × Str, kv ∈ getMusicFiles root fs ↔
      ∃ e ∈ fs, e.isFile = true ∧
        lowerStr (pathSuffix (entryName e)) ∈ musicExtensions ∧
        kv = (joinPath e.relParts, joinPath (root :: e.relParts))) ∧
    lowerStr (pathSuffix "track.MP3".data) = ".mp3".data ∧
    ".mp3".data ∈ musicExtensions ∧
    (∀ (p : Str) (ps : List Str),
      joinPath (root :: p :: ps) = root ++ '/' :: joinPath (p :: ps)) := by
  refine ⟨?_, by decide, by decide, fun p ps => rfl⟩
  intro kv
  induction fs with
  | nil => simp [getMusicFiles]
  | cons e rest ih =>
      by_cases he : e.isFile = true ∧
          lowerStr (pathSuffix (entryName e)) ∈ musicExtensions
      · simp only [getMusicFiles, if_pos he, List.mem_cons]
        constructor
        · rintro (rfl | hkv)
          · exact ⟨e, Or.inl rfl, he.1, he.2, rfl⟩
          · obtain ⟨e', he', h1, h2, h3⟩ := ih.mp hkv
            exact ⟨e', Or.inr he', h1, h2, h3⟩
        · rintro ⟨e', rfl | he', h1, h2, h3⟩
          · left; rw [h3]
          · right; exact ih.mpr ⟨e', he', h1, h2, h3⟩
      · simp only [getMusicFiles, if_neg he, List.mem_cons]
        constructor
        · intro hkv
          obtain ⟨e', he', h1, h2, h3⟩ := ih.mp hkv
          exact ⟨e', Or.inr he', h1, h2, h3⟩
        · rintro ⟨e', rfl | he', h1, h2, h3⟩
          · exact absurd ⟨h1, h2⟩ he
          · exact ih.mpr ⟨e', he', h1, h2, h3⟩

/-- A concrete traversal entry with an uppercase extension. -/
def sampleEntry : FsEntry :=
  { relParts := ["Album".data, "track.MP3".data], isFile := true }

/-- C10 witness: the characterization instantiated on one concrete entry
with an uppercase extension. -/
theorem c10_witness :
    ("Album/track.MP3".data, "Music/Album/track.MP3".data) ∈
      getMusicFiles "Music".data [sampleEntry] :=
  ((c10_collection "Music".data [sampleEntry]).1 _).mpr
    ⟨sampleEntry, by simp, by decide, by decide, by decide⟩
